import Mathlib

/-!
Shallow embedding of `src/tasks/scheduler.py` (task scheduling by
maximum-weight independent set over a conflict graph).

Conventions of the embedding:

* Python float profits are modelled by exact rationals `Q` (a numerator and
  a positive denominator; operations never normalize, comparisons
  cross-multiply).  All decisions the Python code takes on profits are
  order comparisons, which `Q` models exactly.
* Python lists mutated in place are threaded explicitly: the builder
  returns the final state of its input list next to its result, because
  `from_tasks_to_graph` consumes the caller's list via `tasks.pop()`.
* `tasks.pop()` removes the last element, so the builder recurses over the
  reversed list; the remaining-list state is reversed back at the end.
* Exceptions are modelled by `Except`: `BuildErr.invalidTaskFormat t`
  models `InvalidTaskFormat` (modelled from the spec: the class itself
  lives in `tasks/exceptions.py`, which is not part of the sources; the
  spec says its message carries the offending task's content, so the
  offending record is carried verbatim), and `BuildErr.keyError k` models
  an uncaught Python `KeyError` for the dictionary key `k`.
* The solver inherits from networkx's `MaxWeightClique`.  The inherited
  methods (`find_branching_nodes`, `greedily_find_independent_set`,
  `find_max_weight_clique`, `update_incumbent_if_improved`) are modelled
  from the spec, section 4.2, which describes them: the greedy
  coloring-style bound over independent groups, the branching set, the
  top-level call on all graph nodes, and the incumbent update.
* Recursion is fuelled so that every definition is structurally recursive
  and kernel-computable; the fuel passed by the wrappers is provably
  sufficient (see the adequacy theorems), so the fuelled functions agree
  with the unbounded Python recursion.
-/

/-- Exact rational numbers with a positive denominator, modelling the
profit arithmetic of the Python code.  Operations never normalize. -/
structure Q where
  num : Int
  den : Int
  den_pos : 0 < den

/-- The rational zero, the initial incumbent weight. -/
def Q.zero : Q := ⟨0, 1, by decide⟩

/-- Addition by cross multiplication. -/
def Q.add (x y : Q) : Q :=
  ⟨x.num * y.den + y.num * x.den, x.den * y.den, mul_pos x.den_pos y.den_pos⟩

/-- Subtraction by cross multiplication. -/
def Q.sub (x y : Q) : Q :=
  ⟨x.num * y.den - y.num * x.den, x.den * y.den, mul_pos x.den_pos y.den_pos⟩

/-- Strict order, valid because denominators are positive. -/
def Q.lt (x y : Q) : Prop := x.num * y.den < y.num * x.den

/-- Non-strict order. -/
def Q.le (x y : Q) : Prop := x.num * y.den ≤ y.num * x.den

/-- Numeric equality of possibly unnormalized representatives. -/
def Q.equiv (x y : Q) : Prop := x.num * y.den = y.num * x.den

instance : DecidableEq Q := fun x y =>
  decidable_of_iff (x.num = y.num ∧ x.den = y.den) (by cases x; cases y; simp)

instance (x y : Q) : Decidable (Q.lt x y) :=
  inferInstanceAs (Decidable (_ < _))

instance (x y : Q) : Decidable (Q.le x y) :=
  inferInstanceAs (Decidable (_ ≤ _))

instance (x y : Q) : Decidable (Q.equiv x y) :=
  inferInstanceAs (Decidable (_ = _))

/-- Python's two-argument `min`: the second argument only replaces the
first when it is strictly smaller. -/
def Q.min (x y : Q) : Q := if Q.lt y x then y else x

/-- Python's `min` over a nonempty sequence of values `f v`, scanning left
to right; `Q.zero` is a dummy for the empty list (Python `min` raises
there, and the code only calls it on nonempty sequences). -/
def listMinQ {α : Type} (f : α → Q) : List α → Q
  | [] => Q.zero
  | v :: rest => rest.foldl (fun acc u => Q.min acc (f u)) (f v)

/-- A task record as read from the uploaded JSON document: a Python dict
whose relevant keys are `name`, `resources` and `profit`; a missing key is
`none`. -/
structure RawTask where
  name : Option String
  resources : Option (List String)
  profit : Option Q
deriving DecidableEq

/-- Errors of the pipeline: `invalidTaskFormat t` models the repository's
`InvalidTaskFormat` exception whose message carries the offending task
`t`'s content; `keyError k` models an uncaught Python `KeyError` on the
dictionary key `k`. -/
inductive BuildErr where
  | invalidTaskFormat (task : RawTask)
  | keyError (key : String)
deriving DecidableEq

/-- The networkx `Graph` as the code uses it: nodes in insertion order, a
`profit` node attribute, and an undirected simple edge list. -/
structure NXGraph where
  nodes : List String
  profits : List (String × Q)
  edges : List (String × String)
deriving DecidableEq

/-- The empty graph `Graph()`. -/
def NXGraph.empty : NXGraph := ⟨[], [], []⟩

/-- Node-attribute lookup (first binding wins, as in a Python dict whose
keys are unique). -/
def lookupProfit : List (String × Q) → String → Option Q
  | [], _ => none
  | (k, v) :: rest, x => if k = x then some v else lookupProfit rest x

/-- Setting a node attribute: replace an existing binding, else append. -/
def setProfit : List (String × Q) → String → Q → List (String × Q)
  | [], x, p => [(x, p)]
  | (k, v) :: rest, x, p =>
    if k = x then (k, p) :: rest else (k, v) :: setProfit rest x p

/-- Inserting a node without touching attributes (what `add_edge` does for
endpoints that are not yet present). -/
def NXGraph.insNode (g : NXGraph) (x : String) : NXGraph :=
  if x ∈ g.nodes then g else { g with nodes := g.nodes ++ [x] }

/-- `G.add_node(x, profit=p)`: insert the node if absent and set its
`profit` attribute. -/
def NXGraph.addNode (g : NXGraph) (x : String) (p : Q) : NXGraph :=
  let g' := g.insNode x
  { g' with profits := setProfit g'.profits x p }

/-- `G.has_edge(u, v)`: the undirected adjacency test. -/
def NXGraph.hasEdge (g : NXGraph) (u v : String) : Bool :=
  g.edges.any fun e => (e.1 = u && e.2 = v) || (e.1 = v && e.2 = u)

/-- `G.add_edge(u, v)`: insert missing endpoints (u first, then v), then
the edge unless it is already present (simple graph, no parallel edges). -/
def NXGraph.addEdge (g : NXGraph) (u v : String) : NXGraph :=
  let g' := (g.insNode u).insNode v
  if g'.hasEdge u v then g' else { g' with edges := g'.edges ++ [(u, v)] }

/-- `are_incompatibles(t1_resources, t2_resources)` from the source: two
resource lists are incompatible when they share an item; the test is the
literal double `any` of the Python code. -/
def are_incompatibles (t1Res t2Res : List String) : Bool :=
  (t1Res.any fun item => decide (item ∈ t2Res)) ||
    (t2Res.any fun item => decide (item ∈ t1Res))

/-- The `for t2 in tasks` loop body of `from_tasks_to_graph` for a fixed
popped task `t1` (whose name `nm` is already known to be present): for
each remaining `t2`, evaluate `t1["resources"]` and `t2["resources"]`
(an absent key is an uncaught `KeyError`), and on incompatibility add the
edge `(t1["name"], t2["name"])` (where an absent `t2["name"]` is again an
uncaught `KeyError`). -/
def addEdgesLoop (t1 : RawTask) (nm : String) :
    NXGraph → List RawTask → Except BuildErr NXGraph
  | g, [] => .ok g
  | g, t2 :: rest =>
    match t1.resources with
    | none => .error (.keyError "resources")
    | some r1 =>
      match t2.resources with
      | none => .error (.keyError "resources")
      | some r2 =>
        if are_incompatibles r1 r2 then
          match t2.name with
          | none => .error (.keyError "name")
          | some nm2 => addEdgesLoop t1 nm (g.addEdge nm nm2) rest
        else addEdgesLoop t1 nm g rest

/-- The `while tasks:` loop of `from_tasks_to_graph`, acting on the
reversed task list (so that `tasks.pop()` is the head).  Returns the
result together with the final (still reversed) state of the list. -/
def buildGo : NXGraph → List RawTask → Except BuildErr NXGraph × List RawTask
  | g, [] => (.ok g, [])
  | g, t1 :: rest =>
    match t1.name, t1.profit with
    | some nm, some p =>
      match addEdgesLoop t1 nm (g.addNode nm p) rest.reverse with
      | .ok g2 => buildGo g2 rest
      | .error e => (.error e, rest)
    | _, _ => (.error (.invalidTaskFormat t1), rest)

/-- `from_tasks_to_graph(tasks)` from the source.  The second component is
the final state of the caller's list (the Python code consumes the list
in place, popping from the end; on an exception the unprocessed prefix
remains). -/
def from_tasks_to_graph (tasks : List RawTask) :
    Except BuildErr NXGraph × List RawTask :=
  let r := buildGo NXGraph.empty tasks.reverse
  (r.1, r.2.reverse)

/-- The incumbent state of `MaxWeightTasksSelector`: the best candidate
found so far and its weight. -/
structure Incumbent (α : Type) where
  nodes : List α
  weight : Q
deriving DecidableEq

/-- `update_incumbent_if_improved(C, C_weight)`: replace the incumbent
when the candidate weighs strictly more.  Modelled from the spec (the
method is inherited from networkx's `MaxWeightClique`). -/
def update_incumbent_if_improved {α : Type} (inc : Incumbent α) (C : List α)
    (Cw : Q) : Incumbent α :=
  if Q.lt inc.weight Cw then ⟨C, Cw⟩ else inc

/-- Fuelled core of `greedily_find_independent_set`: repeatedly take the
head `v` of the pool and drop everything equal or adjacent to it.  One
unit of fuel is spent per selected node, so `P.length` fuel always
suffices. -/
def greedyGo {α : Type} [DecidableEq α] (E : α → α → Bool) :
    Nat → List α → List α
  | 0, _ => []
  | _ + 1, [] => []
  | fuel + 1, v :: rest =>
    v :: greedyGo E fuel (rest.filter fun w => decide (v ≠ w) && !(E v w))

/-- `greedily_find_independent_set(P)`: greedily pick an independent set
(in the conflict graph) from the pool `P`.  Modelled from the spec
(inherited networkx method: a greedy coloring class). -/
def greedily_find_independent_set {α : Type} [DecidableEq α]
    (E : α → α → Bool) (P : List α) : List α :=
  greedyGo E P.length P

/-- Fuelled core of `find_branching_nodes`: peel off greedy independent
classes, charging each class its minimum residual weight, until the
accumulated bound exceeds the target; the nodes never fully charged are
the branching nodes.  Each round removes at least the class minimizer, so
`P.length` fuel always suffices. -/
def findBranchingGo {α : Type} [DecidableEq α] (E : α → α → Bool) :
    Nat → (α → Q) → Q → Q → List α → List α
  | 0, _, _, _, P => P
  | _ + 1, _, _, _, [] => []
  | fuel + 1, residual, totalWt, target, P =>
    let iset := greedily_find_independent_set E P
    let m := listMinQ residual iset
    if Q.lt target (Q.add totalWt m) then P
    else
      let residual' := fun v => if v ∈ iset then Q.sub (residual v) m else residual v
      findBranchingGo E fuel residual' (Q.add totalWt m) target
        (P.filter fun v => decide (¬ Q.equiv (residual' v) Q.zero))

/-- `find_branching_nodes(P, target)`: the inherited coloring-style bound
of networkx's `MaxWeightClique`, modelled from the spec: a greedy
partition of `P` into independent groups, each charged its minimum
residual weight, discards every node whose weight is fully covered while
the accumulated total stays at or below `target`. -/
def find_branching_nodes {α : Type} [DecidableEq α] (E : α → α → Bool)
    (w : α → Q) (P : List α) (target : Q) : List α :=
  findBranchingGo E P.length w Q.zero target P

/-- `MaxWeightTasksSelector.expand(C, C_weight, P)` from the source (the
overridden method): update the incumbent, compute the branching nodes,
then pop branching nodes from the end, removing each from the pool and
recursing on the sub-pool of nodes NOT adjacent to it (the inverted
adjacency test).  The `while branching_nodes:` loop is a fold over the
reversed branching list threading the mutated pool and the incumbent.
One unit of fuel bounds the depth of nested `expand` calls; since every
recursive call strictly shrinks the pool, `P.length + 1` fuel always
suffices (see the adequacy theorem). -/
def expand {α : Type} [DecidableEq α] (E : α → α → Bool) (w : α → Q) :
    Nat → List α → Q → List α → Incumbent α → Incumbent α
  | 0, _, _, _, inc => inc
  | fuel + 1, C, Cw, P, inc =>
    let inc1 := update_incumbent_if_improved inc C Cw
    ((find_branching_nodes E w P (Q.sub inc1.weight Cw)).reverse.foldl
      (fun st v =>
        let P' := st.1.erase v
        let newP := P'.filter fun u => !(E v u)
        (P', expand E w fuel (C ++ [v]) (Q.add Cw (w v)) newP st.2))
      (P, inc1)).2

/-- `find_max_weight_clique()`: the top-level call `expand([], 0, P)` with
`P` initially all graph nodes.  Modelled from the spec ("`P`: the pool of
nodes still eligible to extend `C` — initially all graph nodes"). -/
def find_max_weight_clique {α : Type} [DecidableEq α] (E : α → α → Bool)
    (w : α → Q) (nodes : List α) : Incumbent α :=
  expand E w (nodes.length + 1) [] Q.zero nodes ⟨[], Q.zero⟩

/-- `get_maximum_weighted_independient_set(graph)` from the source:
construct the selector (whose `__init__` raises `KeyError` when some node
lacks the requested weight attribute), run the search, and return the
incumbent.  The incumbent's node list is what the Python function
returns; the weight is kept so that theorems can speak about it. -/
def get_maximum_weighted_independient_set (g : NXGraph) :
    Except BuildErr (Incumbent String) :=
  if g.nodes.all fun v => (lookupProfit g.profits v).isSome then
    .ok (find_max_weight_clique g.hasEdge
      (fun v => (lookupProfit g.profits v).getD Q.zero) g.nodes)
  else .error (.keyError "profit")

/-- `get_highest_profit_schedule(tasks)` from the source: build the graph,
solve, return the selected task names.  The second component is the final
state of the caller's task list (consumed by the builder). -/
def get_highest_profit_schedule (tasks : List RawTask) :
    Except BuildErr (List String) × List RawTask :=
  match from_tasks_to_graph tasks with
  | (.ok g, st) =>
    (match get_maximum_weighted_independient_set g with
     | .ok inc => .ok inc.nodes
     | .error e => .error e, st)
  | (.error e, st) => (.error e, st)

/-- Observer: the solver's final incumbent weight on a task list, when the
pipeline succeeds. -/
def solver_weight (tasks : List RawTask) : Option Q :=
  match (from_tasks_to_graph tasks).1 with
  | .ok g =>
    match get_maximum_weighted_independient_set g with
    | .ok inc => some inc.weight
    | .error _ => none
  | .error _ => none

/-- A task record is well formed when the three required keys are
present. -/
def taskWF (t : RawTask) : Prop :=
  t.name.isSome = true ∧ t.resources.isSome = true ∧ t.profit.isSome = true

instance (t : RawTask) : Decidable (taskWF t) :=
  inferInstanceAs (Decidable (_ ∧ _ ∧ _))

/-- The names of the tasks of a list (only present ones). -/
def namesOf (ts : List RawTask) : List String := ts.filterMap (·.name)

/-- A task list is well formed when every record has the three keys and
names are unique. -/
def wellFormed (ts : List RawTask) : Prop :=
  (∀ t ∈ ts, taskWF t) ∧ (namesOf ts).Nodup

instance (ts : List RawTask) : Decidable (wellFormed ts) :=
  inferInstanceAs (Decidable (_ ∧ _))

/-- Whether two tasks share a resource (the incompatibility test applied
to their resource lists). -/
def sharesResource (t1 t2 : RawTask) : Bool :=
  are_incompatibles (t1.resources.getD []) (t2.resources.getD [])

/-- Pairwise compatibility of a set of tasks: no two of them share a
resource. -/
def pairwiseCompatible : List RawTask → Bool
  | [] => true
  | t :: rest =>
    (rest.all fun t2 => !(sharesResource t t2)) && pairwiseCompatible rest

/-- Summed profit of a list of tasks. -/
def sumProfits (ts : List RawTask) : Q :=
  ts.foldr (fun t acc => Q.add (t.profit.getD Q.zero) acc) Q.zero

/-- Brute-force reference: the best total profit over all subsets of the
task list in which no two tasks share a resource. -/
def bruteBestProfit (tasks : List RawTask) : Q :=
  (tasks.sublists.filter pairwiseCompatible).foldl
    (fun acc s => if Q.lt acc (sumProfits s) then sumProfits s else acc)
    Q.zero

deriving instance DecidableEq for Except

/-- The graph that `from_tasks_to_graph` builds for the concrete scenario:
nodes in insertion order (tasks are popped from the end of the list, and
`add_edge` inserts missing endpoints early), one `profit` attribute per
task, and one edge per resource-sharing pair. -/
def readmeGraph : NXGraph :=
  ⟨["t4", "t1", "t2", "t3"],
   [("t4", ⟨63, 10, by decide⟩), ("t3", ⟨32, 10, by decide⟩),
    ("t2", ⟨14, 10, by decide⟩), ("t1", ⟨94, 10, by decide⟩)],
   [("t4", "t1"), ("t4", "t2"), ("t3", "t1"), ("t2", "t1")]⟩

/-- The four tasks of the concrete scenario of the spec (and of the
docstring of `from_tasks_to_graph`). -/
def readmeTasks : List RawTask :=
  [⟨some "t1", some ["a", "b", "c"], some ⟨94, 10, by decide⟩⟩,
   ⟨some "t2", some ["a", "d"], some ⟨14, 10, by decide⟩⟩,
   ⟨some "t3", some ["b"], some ⟨32, 10, by decide⟩⟩,
   ⟨some "t4", some ["c", "d"], some ⟨63, 10, by decide⟩⟩]

/-- A four-task instance on which the search is suboptimal: only `t0` and
`t1` conflict, so the optimum is `{t1, t2, t3}` with profit 15, but the
inherited clique bound wrongly prunes it and the code returns
`{t0, t2, t3}` with profit 14. -/
def cexTasks : List RawTask :=
  [⟨some "t0", some ["r"], some ⟨8, 1, by decide⟩⟩,
   ⟨some "t1", some ["r"], some ⟨9, 1, by decide⟩⟩,
   ⟨some "t2", some [], some ⟨5, 1, by decide⟩⟩,
   ⟨some "t3", some [], some ⟨1, 1, by decide⟩⟩]

/-- The same four tasks as `cexTasks` with `t1` and `t2` swapped; in this
order the search finds the true optimum, profit 15. -/
def cexTasksPerm : List RawTask :=
  [⟨some "t0", some ["r"], some ⟨8, 1, by decide⟩⟩,
   ⟨some "t2", some [], some ⟨5, 1, by decide⟩⟩,
   ⟨some "t1", some ["r"], some ⟨9, 1, by decide⟩⟩,
   ⟨some "t3", some [], some ⟨1, 1, by decide⟩⟩]

/-- Independence of a list of nodes with respect to an adjacency test:
no listed node is adjacent to a later listed one. -/
def indepL {α : Type} (E : α → α → Bool) (l : List α) : Prop :=
  List.Pairwise (fun a b => E a b = false) l

/-! ### Order facts about `Q` -/

theorem Q.le_refl (x : Q) : Q.le x x := Int.le_refl _

theorem Q.le_of_lt {x y : Q} (h : Q.lt x y) : Q.le x y := Int.le_of_lt h

theorem Q.le_trans {x y z : Q} (h1 : Q.le x y) (h2 : Q.le y z) : Q.le x z := by
  have hx := x.den_pos
  have hy := y.den_pos
  have hz := z.den_pos
  have h1' := mul_le_mul_of_nonneg_right h1 hz.le
  have h2' := mul_le_mul_of_nonneg_right h2 hx.le
  have : x.num * z.den * y.den ≤ z.num * x.den * y.den := by nlinarith
  exact le_of_mul_le_mul_right this hy

/-! ### Facts about the graph operations -/

theorem mem_insNode (g : NXGraph) (y x : String) :
    x ∈ (g.insNode y).nodes ↔ x ∈ g.nodes ∨ x = y := by
  unfold NXGraph.insNode
  split
  · constructor
    · exact fun h => Or.inl h
    · rintro (h | rfl)
      · exact h
      · assumption
  · simp [or_comm]

theorem nodup_insNode (g : NXGraph) (y : String) (h : g.nodes.Nodup) :
    (g.insNode y).nodes.Nodup := by
  unfold NXGraph.insNode
  split
  · exact h
  · rename_i hy
    simp [List.nodup_append, h, hy]

theorem insNode_edges (g : NXGraph) (y : String) :
    (g.insNode y).edges = g.edges := by
  unfold NXGraph.insNode
  split <;> rfl

theorem insNode_profits (g : NXGraph) (y : String) :
    (g.insNode y).profits = g.profits := by
  unfold NXGraph.insNode
  split <;> rfl

theorem hasEdge_insNode (g : NXGraph) (y u v : String) :
    (g.insNode y).hasEdge u v = g.hasEdge u v := by
  unfold NXGraph.hasEdge
  rw [insNode_edges]

theorem lookup_setProfit (ps : List (String × Q)) (y : String) (p : Q)
    (x : String) :
    lookupProfit (setProfit ps y p) x =
      if y = x then some p else lookupProfit ps x := by
  induction ps with
  | nil =>
    by_cases h : y = x <;> simp [setProfit, lookupProfit, h]
  | cons kv rest ih =>
    obtain ⟨k, v⟩ := kv
    by_cases hk : k = y
    · subst hk
      by_cases hx : k = x <;> simp [setProfit, lookupProfit, hx]
    · simp only [setProfit, if_neg hk, lookupProfit]
      by_cases hx : k = x
      · have hyx : ¬ y = x := fun h => hk (hx.trans h.symm)
        simp [hx, hyx]
      · simp [hx, ih]

theorem addNode_profits (g : NXGraph) (y : String) (p : Q) :
    (g.addNode y p).profits = setProfit g.profits y p := by
  simp only [NXGraph.addNode]
  rw [insNode_profits]

theorem lookup_addNode (g : NXGraph) (y : String) (p : Q) (x : String) :
    lookupProfit (g.addNode y p).profits x =
      if y = x then some p else lookupProfit g.profits x := by
  rw [addNode_profits, lookup_setProfit]

theorem mem_addNode (g : NXGraph) (y : String) (p : Q) (x : String) :
    x ∈ (g.addNode y p).nodes ↔ x ∈ g.nodes ∨ x = y := by
  simp only [NXGraph.addNode]
  exact mem_insNode g y x

theorem nodup_addNode (g : NXGraph) (y : String) (p : Q)
    (h : g.nodes.Nodup) : (g.addNode y p).nodes.Nodup := nodup_insNode g y h

theorem addNode_edges (g : NXGraph) (y : String) (p : Q) :
    (g.addNode y p).edges = g.edges := insNode_edges _ _

theorem hasEdge_addNode (g : NXGraph) (y : String) (p : Q) (u v : String) :
    (g.addNode y p).hasEdge u v = g.hasEdge u v := by
  unfold NXGraph.hasEdge
  rw [addNode_edges]

theorem hasEdge_symm (g : NXGraph) (u v : String) :
    g.hasEdge u v = g.hasEdge v u := by
  unfold NXGraph.hasEdge
  rw [Bool.eq_iff_iff]
  simp only [List.any_eq_true]
  constructor
  · rintro ⟨e, he, hm⟩
    exact ⟨e, he, by revert hm; cases e; simp; tauto⟩
  · rintro ⟨e, he, hm⟩
    exact ⟨e, he, by revert hm; cases e; simp; tauto⟩

theorem hasEdge_pair (g : NXGraph) (es : List (String × String))
    (a b u v : String) :
    (NXGraph.mk g.nodes g.profits (es ++ [(a, b)])).hasEdge u v = true ↔
      (NXGraph.mk g.nodes g.profits es).hasEdge u v = true ∨
        (u = a ∧ v = b) ∨ (u = b ∧ v = a) := by
  simp only [NXGraph.hasEdge, List.any_append, List.any_cons, List.any_nil,
    Bool.or_eq_true, Bool.or_false, Bool.and_eq_true, decide_eq_true_eq]
  constructor
  · rintro (h | (⟨h1, h2⟩ | ⟨h1, h2⟩))
    · exact Or.inl h
    · exact Or.inr (Or.inl ⟨h1.symm, h2.symm⟩)
    · exact Or.inr (Or.inr ⟨h2.symm, h1.symm⟩)
  · rintro (h | ⟨rfl, rfl⟩ | ⟨rfl, rfl⟩)
    · exact Or.inl h
    · exact Or.inr (Or.inl ⟨rfl, rfl⟩)
    · exact Or.inr (Or.inr ⟨rfl, rfl⟩)

theorem hasEdge_addEdge (g : NXGraph) (a b u v : String) :
    (g.addEdge a b).hasEdge u v = true ↔
      g.hasEdge u v = true ∨ (u = a ∧ v = b) ∨ (u = b ∧ v = a) := by
  simp only [NXGraph.addEdge]
  split
  · rename_i hab
    rw [hasEdge_insNode, hasEdge_insNode] at hab ⊢
    constructor
    · exact fun h => Or.inl h
    · rintro (h | ⟨rfl, rfl⟩ | ⟨rfl, rfl⟩)
      · exact h
      · exact hab
      · rw [hasEdge_symm]; exact hab
  · have h2 : ((g.insNode a).insNode b).edges = g.edges := by
      rw [insNode_edges, insNode_edges]
    rw [h2]
    have := hasEdge_pair g g.edges a b u v
    simp only [NXGraph.hasEdge] at this ⊢
    exact this

theorem mem_addEdge (g : NXGraph) (a b x : String) :
    x ∈ (g.addEdge a b).nodes ↔ x ∈ g.nodes ∨ x = a ∨ x = b := by
  simp only [NXGraph.addEdge]
  split
  · rw [mem_insNode, mem_insNode]
    tauto
  · show x ∈ ((g.insNode a).insNode b).nodes ↔ _
    rw [mem_insNode, mem_insNode]
    tauto

theorem nodup_addEdge (g : NXGraph) (a b : String) (h : g.nodes.Nodup) :
    (g.addEdge a b).nodes.Nodup := by
  simp only [NXGraph.addEdge]
  split
  · exact nodup_insNode _ _ (nodup_insNode _ _ h)
  · exact nodup_insNode _ _ (nodup_insNode _ _ h)

theorem addEdge_profits (g : NXGraph) (a b : String) :
    (g.addEdge a b).profits = g.profits := by
  simp only [NXGraph.addEdge]
  split
  · rw [insNode_profits, insNode_profits]
  · show ((g.insNode a).insNode b).profits = _
    rw [insNode_profits, insNode_profits]

theorem are_incompatibles_comm (r1 r2 : List String) :
    are_incompatibles r1 r2 = are_incompatibles r2 r1 := by
  unfold are_incompatibles
  rw [Bool.or_comm]

/-! ### Characterization of the graph builder -/

theorem namesOf_cons_some (t : RawTask) (ts : List RawTask) (nm : String)
    (h : t.name = some nm) : namesOf (t :: ts) = nm :: namesOf ts := by
  simp [namesOf, List.filterMap_cons, h]

theorem mem_namesOf {x : String} {ts : List RawTask} :
    x ∈ namesOf ts ↔ ∃ t ∈ ts, t.name = some x := by
  simp [namesOf, List.mem_filterMap]

theorem namesOf_reverse (ts : List RawTask) :
    namesOf ts.reverse = (namesOf ts).reverse := by
  simp [namesOf, List.filterMap_reverse]

theorem addEdgesLoop_ok (t1 : RawTask) (nm : String) (r1 : List String)
    (ht1 : t1.resources = some r1) :
    ∀ (l : List RawTask) (g : NXGraph),
      (∀ t2 ∈ l, t2.resources.isSome = true ∧ t2.name.isSome = true) →
      ∃ g', addEdgesLoop t1 nm g l = .ok g' ∧
        g'.profits = g.profits ∧
        (∀ x, x ∈ g.nodes → x ∈ g'.nodes) ∧
        (∀ x, x ∈ g'.nodes → x ∈ g.nodes ∨ x = nm ∨ x ∈ namesOf l) ∧
        (g.nodes.Nodup → g'.nodes.Nodup) ∧
        (∀ u v, g'.hasEdge u v = true ↔ g.hasEdge u v = true ∨
          ∃ t2 ∈ l, ∃ nm2, t2.name = some nm2 ∧
            are_incompatibles r1 (t2.resources.getD []) = true ∧
            ((u = nm ∧ v = nm2) ∨ (u = nm2 ∧ v = nm))) := by
  intro l
  induction l with
  | nil =>
    intro g _
    exact ⟨g, rfl, rfl, fun x h => h, fun x h => Or.inl h, fun h => h,
      fun u v => by simp⟩
  | cons t2 rest ih =>
    intro g hwf
    obtain ⟨hres2, hname2⟩ := hwf t2 (by simp)
    obtain ⟨r2, hr2⟩ := Option.isSome_iff_exists.mp hres2
    obtain ⟨nm2, hnm2⟩ := Option.isSome_iff_exists.mp hname2
    have hrest : ∀ t ∈ rest, t.resources.isSome = true ∧ t.name.isSome = true :=
      fun t ht => hwf t (by simp [ht])
    by_cases hinc : are_incompatibles r1 r2 = true
    · obtain ⟨g', hrun, hprof, hup, hdown, hnd, hedge⟩ :=
        ih (g.addEdge nm nm2) hrest
      refine ⟨g', ?_, ?_, ?_, ?_, ?_, ?_⟩
      · simp [addEdgesLoop, ht1, hr2, hinc, hnm2, hrun]
      · rw [hprof, addEdge_profits]
      · intro x hx
        exact hup x ((mem_addEdge g nm nm2 x).mpr (Or.inl hx))
      · intro x hx
        rcases hdown x hx with h | h | h
        · rcases (mem_addEdge g nm nm2 x).mp h with h' | h' | h'
          · exact Or.inl h'
          · exact Or.inr (Or.inl h')
          · refine Or.inr (Or.inr ?_)
            rw [mem_namesOf]
            exact ⟨t2, by simp, h' ▸ hnm2⟩
        · exact Or.inr (Or.inl h)
        · refine Or.inr (Or.inr ?_)
          rw [mem_namesOf] at h ⊢
          obtain ⟨t, ht, hn⟩ := h
          exact ⟨t, by simp [ht], hn⟩
      · exact fun h => hnd (nodup_addEdge g nm nm2 h)
      · intro u v
        rw [hedge u v, hasEdge_addEdge]
        constructor
        · rintro ((h | h) | h)
          · exact Or.inl h
          · refine Or.inr ⟨t2, by simp, nm2, hnm2, ?_, ?_⟩
            · rw [hr2]; exact hinc
            · tauto
          · obtain ⟨t, ht, n, hn, hi, hor⟩ := h
            exact Or.inr ⟨t, by simp [ht], n, hn, hi, hor⟩
        · rintro (h | ⟨t, ht, n, hn, hi, hor⟩)
          · exact Or.inl (Or.inl h)
          · rcases List.mem_cons.mp ht with rfl | ht'
            · have : n = nm2 := by rw [hnm2] at hn; exact (Option.some_inj.mp hn).symm
              subst this
              exact Or.inl (Or.inr (by tauto))
            · exact Or.inr ⟨t, ht', n, hn, hi, hor⟩
    · obtain ⟨g', hrun, hprof, hup, hdown, hnd, hedge⟩ := ih g hrest
      refine ⟨g', ?_, hprof, hup, ?_, hnd, ?_⟩
      · simp [addEdgesLoop, ht1, hr2, hinc, hrun]
      · intro x hx
        rcases hdown x hx with h | h | h
        · exact Or.inl h
        · exact Or.inr (Or.inl h)
        · refine Or.inr (Or.inr ?_)
          rw [mem_namesOf] at h ⊢
          obtain ⟨t, ht, hn⟩ := h
          exact ⟨t, by simp [ht], hn⟩
      · intro u v
        rw [hedge u v]
        constructor
        · rintro (h | ⟨t, ht, n, hn, hi, hor⟩)
          · exact Or.inl h
          · exact Or.inr ⟨t, by simp [ht], n, hn, hi, hor⟩
        · rintro (h | ⟨t, ht, n, hn, hi, hor⟩)
          · exact Or.inl h
          · rcases List.mem_cons.mp ht with rfl | ht'
            · rw [hr2] at hi
              simp only [Option.getD_some] at hi
              exact absurd hi hinc
            · exact Or.inr ⟨t, ht', n, hn, hi, hor⟩

theorem buildGo_ok :
    ∀ (rts : List RawTask) (g : NXGraph),
      (∀ t ∈ rts, taskWF t) → (namesOf rts).Nodup →
      ∃ g', buildGo g rts = (.ok g', []) ∧
        (∀ x, x ∈ g.nodes → x ∈ g'.nodes) ∧
        (∀ x, x ∈ g'.nodes → x ∈ g.nodes ∨ x ∈ namesOf rts) ∧
        (∀ x, x ∈ namesOf rts → x ∈ g'.nodes) ∧
        (g.nodes.Nodup → g'.nodes.Nodup) ∧
        (∀ x, x ∉ namesOf rts →
          lookupProfit g'.profits x = lookupProfit g.profits x) ∧
        (∀ t ∈ rts, ∀ nm, t.name = some nm →
          lookupProfit g'.profits nm = t.profit) ∧
        (∀ u v, g'.hasEdge u v = true ↔ g.hasEdge u v = true ∨
          ∃ ta ∈ rts, ∃ tb ∈ rts, ta.name = some u ∧ tb.name = some v ∧
            u ≠ v ∧ sharesResource ta tb = true) := by
  intro rts
  induction rts with
  | nil =>
    intro g _ _
    exact ⟨g, rfl, fun x h => h, fun x h => Or.inl h, by simp [namesOf],
      fun h => h, fun x _ => rfl, fun t ht => absurd ht (by simp),
      fun u v => by simp⟩
  | cons t1 rest ih =>
    intro g hwf hnd
    obtain ⟨hn1, hr1s, hp1s⟩ := hwf t1 (by simp)
    obtain ⟨nm, hnm⟩ := Option.isSome_iff_exists.mp hn1
    obtain ⟨r1, hr1⟩ := Option.isSome_iff_exists.mp hr1s
    obtain ⟨p, hp⟩ := Option.isSome_iff_exists.mp hp1s
    rw [namesOf_cons_some t1 rest nm hnm, List.nodup_cons] at hnd
    obtain ⟨hnmrest, hndrest⟩ := hnd
    have hwfrest : ∀ t ∈ rest, taskWF t := fun t ht => hwf t (by simp [ht])
    have hwfrev : ∀ t2 ∈ rest.reverse,
        t2.resources.isSome = true ∧ t2.name.isSome = true := by
      intro t2 ht2
      rw [List.mem_reverse] at ht2
      obtain ⟨h1, h2, _⟩ := hwfrest t2 ht2
      exact ⟨h2, h1⟩
    obtain ⟨g2, hrun2, hprof2, hup2, hdown2, hnd2, hedge2⟩ :=
      addEdgesLoop_ok t1 nm r1 hr1 rest.reverse (g.addNode nm p) hwfrev
    obtain ⟨g', hrun', hup', hdown', hnames', hnd', hout', hcorr', hedge'⟩ :=
      ih g2 hwfrest hndrest
    have hstep : buildGo g (t1 :: rest) = (.ok g', []) := by
      simp [buildGo, hnm, hp, hrun2, hrun']
    have hmemrev : ∀ x : String, x ∈ namesOf rest.reverse ↔ x ∈ namesOf rest := by
      intro x
      rw [namesOf_reverse, List.mem_reverse]
    refine ⟨g', hstep, ?_, ?_, ?_, ?_, ?_, ?_, ?_⟩
    · intro x hx
      exact hup' x (hup2 x ((mem_addNode g nm p x).mpr (Or.inl hx)))
    · intro x hx
      rw [namesOf_cons_some t1 rest nm hnm]
      rcases hdown' x hx with h | h
      · rcases hdown2 x h with h' | h' | h'
        · rcases (mem_addNode g nm p x).mp h' with h'' | h''
          · exact Or.inl h''
          · exact Or.inr (by simp [h''])
        · exact Or.inr (by simp [h'])
        · exact Or.inr (List.mem_cons_of_mem _ ((hmemrev x).mp h'))
      · exact Or.inr (List.mem_cons_of_mem _ h)
    · intro x hx
      rw [namesOf_cons_some t1 rest nm hnm, List.mem_cons] at hx
      rcases hx with rfl | hx
      · exact hup' _ (hup2 _ ((mem_addNode _ _ _ _).mpr (Or.inr rfl)))
      · exact hnames' x hx
    · exact fun h => hnd' (hnd2 (nodup_addNode g nm p h))
    · intro x hx
      rw [namesOf_cons_some t1 rest nm hnm, List.mem_cons] at hx
      push_neg at hx
      obtain ⟨hxnm, hxrest⟩ := hx
      rw [hout' x hxrest, hprof2, lookup_addNode, if_neg (fun h => hxnm h.symm)]
    · intro t ht nm' hnm'
      rcases List.mem_cons.mp ht with rfl | ht'
      · have : nm' = nm := by
          rw [hnm] at hnm'
          exact (Option.some_inj.mp hnm').symm
        subst this
        rw [hout' _ hnmrest, hprof2, lookup_addNode, if_pos rfl, hp]
      · exact hcorr' t ht' nm' hnm'
    · intro u v
      rw [hedge' u v, hedge2 u v, hasEdge_addNode]
      constructor
      · rintro ((h | h) | h)
        · exact Or.inl h
        · obtain ⟨t2, ht2, nm2, hnm2, hi, hor⟩ := h
          rw [List.mem_reverse] at ht2
          have hnm2mem : nm2 ∈ namesOf rest := mem_namesOf.mpr ⟨t2, ht2, hnm2⟩
          have hne : nm ≠ nm2 := fun h => hnmrest (h ▸ hnm2mem)
          have hshare : sharesResource t1 t2 = true := by
            unfold sharesResource
            rw [hr1]
            simpa using hi
          rcases hor with ⟨rfl, rfl⟩ | ⟨rfl, rfl⟩
          · exact Or.inr ⟨t1, by simp, t2, by simp [ht2], hnm, hnm2, hne, hshare⟩
          · refine Or.inr ⟨t2, by simp [ht2], t1, by simp, hnm2, hnm, hne.symm, ?_⟩
            unfold sharesResource at hshare ⊢
            rw [are_incompatibles_comm]
            exact hshare
        · obtain ⟨ta, hta, tb, htb, hna, hnb, hne, hsh⟩ := h
          exact Or.inr ⟨ta, by simp [hta], tb, by simp [htb], hna, hnb, hne, hsh⟩
      · rintro (h | ⟨ta, hta, tb, htb, hna, hnb, hne, hsh⟩)
        · exact Or.inl (Or.inl h)
        · rcases List.mem_cons.mp hta with rfl | hta' <;>
            rcases List.mem_cons.mp htb with rfl | htb'
          · exact absurd (by rw [hna] at hnb; exact Option.some_inj.mp hnb) hne
          · have hu : u = nm := by rw [hnm] at hna; exact (Option.some_inj.mp hna).symm
            refine Or.inl (Or.inr ⟨tb, List.mem_reverse.mpr htb', v, hnb, ?_, Or.inl ⟨hu, rfl⟩⟩)
            unfold sharesResource at hsh
            rw [hr1] at hsh
            simpa using hsh
          · have hv : v = nm := by rw [hnm] at hnb; exact (Option.some_inj.mp hnb).symm
            refine Or.inl (Or.inr ⟨ta, List.mem_reverse.mpr hta', u, hna, ?_, Or.inr ⟨rfl, hv⟩⟩)
            unfold sharesResource at hsh
            rw [are_incompatibles_comm] at hsh
            rw [hr1] at hsh
            simpa using hsh
          · exact Or.inr ⟨ta, hta', tb, htb', hna, hnb, hne, hsh⟩

theorem from_tasks_to_graph_ok (tasks : List RawTask) (hwf : wellFormed tasks) :
    ∃ g, from_tasks_to_graph tasks = (.ok g, []) ∧
      (∀ x, x ∈ g.nodes ↔ ∃ t ∈ tasks, t.name = some x) ∧
      g.nodes.Nodup ∧
      (∀ t ∈ tasks, ∀ nm, t.name = some nm →
        lookupProfit g.profits nm = t.profit) ∧
      (∀ u v, g.hasEdge u v = true ↔ ∃ ta ∈ tasks, ∃ tb ∈ tasks,
        ta.name = some u ∧ tb.name = some v ∧ u ≠ v ∧
        sharesResource ta tb = true) := by
  obtain ⟨hwf1, hwf2⟩ := hwf
  have hrev1 : ∀ t ∈ tasks.reverse, taskWF t := by
    intro t ht
    exact hwf1 t (List.mem_reverse.mp ht)
  have hrev2 : (namesOf tasks.reverse).Nodup := by
    rw [namesOf_reverse]
    exact List.nodup_reverse.mpr hwf2
  obtain ⟨g, hrun, _, hdown, hnames, hnd, _, hcorr, hedge⟩ :=
    buildGo_ok tasks.reverse NXGraph.empty hrev1 hrev2
  have hmem : ∀ x : String, x ∈ namesOf tasks.reverse ↔ ∃ t ∈ tasks, t.name = some x := by
    intro x
    rw [namesOf_reverse, List.mem_reverse, mem_namesOf]
  refine ⟨g, ?_, ?_, ?_, ?_, ?_⟩
  · unfold from_tasks_to_graph
    rw [hrun]
    rfl
  · intro x
    constructor
    · intro hx
      rcases hdown x hx with h | h
      · exact absurd h (by simp [NXGraph.empty])
      · exact (hmem x).mp h
    · intro hx
      exact hnames x ((hmem x).mpr hx)
  · exact hnd (by simp [NXGraph.empty])
  · intro t ht nm hnm
    exact hcorr t (List.mem_reverse.mpr ht) nm hnm
  · intro u v
    rw [hedge u v]
    have hbase : NXGraph.empty.hasEdge u v = false := rfl
    rw [hbase]
    simp only [Bool.false_eq_true, false_or]
    constructor
    · rintro ⟨ta, hta, tb, htb, h⟩
      exact ⟨ta, List.mem_reverse.mp hta, tb, List.mem_reverse.mp htb, h⟩
    · rintro ⟨ta, hta, tb, htb, h⟩
      exact ⟨ta, List.mem_reverse.mpr hta, tb, List.mem_reverse.mpr htb, h⟩

/-! ### Facts about the solver -/

theorem update_incumbent_weight_mono {α : Type} (inc : Incumbent α)
    (C : List α) (Cw : Q) :
    Q.le inc.weight (update_incumbent_if_improved inc C Cw).weight := by
  unfold update_incumbent_if_improved
  split
  · exact Q.le_of_lt (by assumption)
  · exact Q.le_refl _

theorem update_incumbent_nodes {α : Type} (inc : Incumbent α) (C : List α)
    (Cw : Q) :
    (update_incumbent_if_improved inc C Cw).nodes = C ∨
      (update_incumbent_if_improved inc C Cw).nodes = inc.nodes := by
  unfold update_incumbent_if_improved
  split
  · exact Or.inl rfl
  · exact Or.inr rfl

theorem findBranchingGo_sublist {α : Type} [DecidableEq α] (E : α → α → Bool) :
    ∀ (fuel : Nat) (residual : α → Q) (totalWt target : Q) (P : List α),
      List.Sublist (findBranchingGo E fuel residual totalWt target P) P := by
  intro fuel
  induction fuel with
  | zero =>
    intro residual totalWt target P
    exact List.Sublist.refl _
  | succ n ih =>
    intro residual totalWt target P
    cases P with
    | nil => simp [findBranchingGo]
    | cons v rest =>
      rw [findBranchingGo]
      · split
        · exact List.Sublist.refl _
        · exact (ih _ _ _ _).trans (List.filter_sublist _)
      · simp

theorem find_branching_nodes_sublist {α : Type} [DecidableEq α]
    (E : α → α → Bool) (w : α → Q) (P : List α) (target : Q) :
    List.Sublist (find_branching_nodes E w P target) P :=
  findBranchingGo_sublist E P.length w Q.zero target P

theorem foldl_expand_weight_mono {α : Type} [DecidableEq α]
    (E : α → α → Bool) (w : α → Q) (fuel : Nat) (C : List α) (Cw : Q)
    (hstep : ∀ (C' : List α) (Cw' : Q) (P' : List α) (inc' : Incumbent α),
      Q.le inc'.weight (expand E w fuel C' Cw' P' inc').weight) :
    ∀ (l : List α) (st : List α × Incumbent α),
      Q.le st.2.weight
        ((l.foldl (fun st v =>
          (st.1.erase v,
            expand E w fuel (C ++ [v]) (Q.add Cw (w v))
              ((st.1.erase v).filter fun u => !(E v u)) st.2)) st).2).weight := by
  intro l
  induction l with
  | nil => intro st; exact Q.le_refl _
  | cons v rest ihl =>
    intro st
    simp only [List.foldl_cons]
    exact Q.le_trans (hstep _ _ _ _) (ihl _)

theorem expand_weight_mono {α : Type} [DecidableEq α] (E : α → α → Bool)
    (w : α → Q) :
    ∀ (fuel : Nat) (C : List α) (Cw : Q) (P : List α) (inc : Incumbent α),
      Q.le inc.weight (expand E w fuel C Cw P inc).weight := by
  intro fuel
  induction fuel with
  | zero =>
    intro C Cw P inc
    exact Q.le_refl _
  | succ n ih =>
    intro C Cw P inc
    rw [expand]
    exact Q.le_trans (update_incumbent_weight_mono inc C Cw)
      (foldl_expand_weight_mono E w n C Cw (fun C' Cw' P' inc' => ih C' Cw' P' inc') _ _)

theorem foldl_expand_congr {α : Type} [DecidableEq α] (E : α → α → Bool)
    (w : α → Q) (f1 f2 : Nat) (C : List α) (Cw : Q) (n : Nat)
    (hstep : ∀ (C' : List α) (Cw' : Q) (P' : List α) (inc' : Incumbent α),
      P'.length < n →
      expand E w f1 C' Cw' P' inc' = expand E w f2 C' Cw' P' inc') :
    ∀ (l : List α) (P : List α) (inc : Incumbent α),
      (∀ x, l.count x ≤ P.count x) → P.length ≤ n →
      (l.foldl (fun st v =>
          (st.1.erase v,
            expand E w f1 (C ++ [v]) (Q.add Cw (w v))
              ((st.1.erase v).filter fun u => !(E v u)) st.2)) (P, inc)) =
      (l.foldl (fun st v =>
          (st.1.erase v,
            expand E w f2 (C ++ [v]) (Q.add Cw (w v))
              ((st.1.erase v).filter fun u => !(E v u)) st.2)) (P, inc)) := by
  intro l
  induction l with
  | nil => intro P inc _ _; rfl
  | cons v rest ihl =>
    intro P inc hcount hP
    have hv : v ∈ P := by
      have h1 : 0 < (v :: rest).count v := by simp
      have := hcount v
      exact List.count_pos_iff.mp (lt_of_lt_of_le h1 this)
    have hlenerase : (P.erase v).length = P.length - 1 :=
      List.length_erase_of_mem hv
    have hPpos : 0 < P.length := List.length_pos_of_mem hv
    have hnewlen : ((P.erase v).filter fun u => !(E v u)).length < n := by
      calc ((P.erase v).filter fun u => !(E v u)).length
          ≤ (P.erase v).length := List.length_filter_le _ _
        _ = P.length - 1 := hlenerase
        _ < P.length := Nat.sub_lt hPpos (by omega)
        _ ≤ n := hP
    simp only [List.foldl_cons]
    rw [hstep _ _ _ _ hnewlen]
    apply ihl
    · intro x
      have hc := hcount x
      rw [List.count_cons] at hc
      rw [List.count_erase]
      by_cases hx : x = v
      · subst hx
        simp at hc ⊢
        omega
      · simp [hx] at hc ⊢
        omega
    · rw [hlenerase]
      omega

theorem expand_fuel_congr {α : Type} [DecidableEq α] (E : α → α → Bool)
    (w : α → Q) :
    ∀ (n f1 f2 : Nat), n < f1 → n < f2 →
      ∀ (C : List α) (Cw : Q) (P : List α) (inc : Incumbent α),
        P.length ≤ n →
        expand E w f1 C Cw P inc = expand E w f2 C Cw P inc := by
  intro n
  induction n using Nat.strong_induction_on with
  | _ n ih =>
    intro f1 f2 h1 h2 C Cw P inc hP
    obtain ⟨a, rfl⟩ : ∃ a, f1 = a + 1 := ⟨f1 - 1, by omega⟩
    obtain ⟨b, rfl⟩ : ∃ b, f2 = b + 1 := ⟨f2 - 1, by omega⟩
    rw [expand]
    conv_rhs => rw [expand]
    have hcount : ∀ x : α,
        ((find_branching_nodes E w P
          (Q.sub (update_incumbent_if_improved inc C Cw).weight Cw)).reverse.count x)
          ≤ P.count x := by
      intro x
      rw [List.count_reverse]
      exact (find_branching_nodes_sublist E w P _).count_le x
    have hstep : ∀ (C' : List α) (Cw' : Q) (P' : List α) (inc' : Incumbent α),
        P'.length < P.length →
        expand E w a C' Cw' P' inc' = expand E w b C' Cw' P' inc' := by
      intro C' Cw' P' inc' hlt
      exact ih P'.length (by omega) a b (by omega) (by omega) C' Cw' P' inc'
        (Nat.le_refl _)
    rw [foldl_expand_congr E w a b C Cw P.length hstep _ P _ hcount (Nat.le_refl _)]

theorem foldl_expand_indep {α : Type} [DecidableEq α] (E : α → α → Bool)
    (w : α → Q) (fuel : Nat) (C : List α) (Cw : Q)
    (hstep : ∀ (C' : List α) (Cw' : Q) (P' : List α) (inc' : Incumbent α),
      indepL E C' → (∀ u ∈ P', ∀ c ∈ C', E c u = false) →
      indepL E inc'.nodes →
      indepL E (expand E w fuel C' Cw' P' inc').nodes) :
    ∀ (l : List α) (st : List α × Incumbent α),
      indepL E C →
      (∀ u ∈ st.1, ∀ c ∈ C, E c u = false) →
      (∀ v ∈ l, ∀ c ∈ C, E c v = false) →
      indepL E st.2.nodes →
      indepL E ((l.foldl (fun st v =>
        (st.1.erase v,
          expand E w fuel (C ++ [v]) (Q.add Cw (w v))
            ((st.1.erase v).filter fun u => !(E v u)) st.2)) st).2).nodes := by
  intro l
  induction l with
  | nil =>
    intro st _ _ _ hinc
    exact hinc
  | cons v rest ihl =>
    intro st hC hP hl hinc
    simp only [List.foldl_cons]
    have hvC : ∀ c ∈ C, E c v = false := hl v (by simp)
    have hCv : indepL E (C ++ [v]) := by
      unfold indepL at hC ⊢
      rw [List.pairwise_append]
      exact ⟨hC, List.pairwise_singleton _ _, by
        intro a ha b hb
        rw [List.mem_singleton] at hb
        subst hb
        exact hvC a ha⟩
    have hnewP : ∀ u ∈ (st.1.erase v).filter fun u => !(E v u),
        ∀ c ∈ C ++ [v], E c u = false := by
      intro u hu c hc
      rw [List.mem_filter] at hu
      obtain ⟨hu1, hu2⟩ := hu
      rcases List.mem_append.mp hc with hcC | hcv
      · exact hP u (List.erase_subset _ _ hu1) c hcC
      · rw [List.mem_singleton] at hcv
        subst hcv
        simpa using hu2
    have hinc' := hstep (C ++ [v]) (Q.add Cw (w v)) _ st.2 hCv hnewP hinc
    exact ihl (st.1.erase v,
        expand E w fuel (C ++ [v]) (Q.add Cw (w v))
          ((st.1.erase v).filter fun u => !(E v u)) st.2)
      hC
      (fun u hu c hc => hP u (List.erase_subset _ _ hu) c hc)
      (fun v' hv' c hc => hl v' (by simp [hv']) c hc)
      hinc'

theorem expand_indep {α : Type} [DecidableEq α] (E : α → α → Bool)
    (w : α → Q) :
    ∀ (fuel : Nat) (C : List α) (Cw : Q) (P : List α) (inc : Incumbent α),
      indepL E C → (∀ u ∈ P, ∀ c ∈ C, E c u = false) →
      indepL E inc.nodes →
      indepL E (expand E w fuel C Cw P inc).nodes := by
  intro fuel
  induction fuel with
  | zero =>
    intro C Cw P inc _ _ hinc
    exact hinc
  | succ n ih =>
    intro C Cw P inc hC hP hinc
    rw [expand]
    have hinc1 : indepL E (update_incumbent_if_improved inc C Cw).nodes := by
      rcases update_incumbent_nodes inc C Cw with h | h <;> rw [h]
      · exact hC
      · exact hinc
    apply foldl_expand_indep E w n C Cw
      (fun C' Cw' P' inc' => ih C' Cw' P' inc') _ _ hC hP _ hinc1
    intro v hv c hc
    have hvP : v ∈ P := by
      rw [List.mem_reverse] at hv
      exact (find_branching_nodes_sublist E w P _).subset hv
    exact hP v hvP c hc

/-! ### The claims -/

/-- Claim C1 (code bug): the branch-and-bound search is NOT optimal.  On
`cexTasks` (only `t0` and `t1` conflict; profits 8, 9, 5, 1) the code
returns the schedule `{t0, t2, t3}` with total profit 14, while the best
disjoint subset `{t1, t2, t3}` has profit 15: the coloring bound inherited
from networkx's clique search wrongly prunes the optimum under the
inverted adjacency test. -/
theorem claim_C1 :
    (get_highest_profit_schedule cexTasks).1 = .ok ["t0", "t2", "t3"] ∧
    solver_weight cexTasks = some ⟨14, 1, by decide⟩ ∧
    bruteBestProfit cexTasks = ⟨15, 1, by decide⟩ ∧
    ¬ Q.equiv ⟨14, 1, by decide⟩ ⟨15, 1, by decide⟩ := by decide

/-- Claim C2, counterexample: a task whose only missing key is
`resources` does not raise `InvalidTaskFormat`: as the only task it
raises nothing at all (and is scheduled), and with a well-formed second
task the build dies with an uncaught `KeyError` instead. -/
theorem claim_C2_counterexample :
    (from_tasks_to_graph [⟨some "t", none, some ⟨1, 1, by decide⟩⟩]).1 =
      .ok ⟨["t"], [("t", ⟨1, 1, by decide⟩)], []⟩ ∧
    (from_tasks_to_graph
      [⟨none, some ["a"], some ⟨1, 1, by decide⟩⟩,
       ⟨some "t2", some ["a"], some ⟨2, 1, by decide⟩⟩]).1 =
      .error (.keyError "name") := by decide

/-- Claim C2, amended: when the LAST task of the list (the first one
popped) is missing `name` or `profit`, graph construction raises
`InvalidTaskFormat` carrying that record's content, whatever the other
records are, and no schedule is returned (the error propagates). -/
theorem claim_C2 (ts : List RawTask) (t : RawTask)
    (h : t.name = none ∨ t.profit = none) :
    from_tasks_to_graph (ts ++ [t]) = (.error (.invalidTaskFormat t), ts) ∧
    (get_highest_profit_schedule (ts ++ [t])).1 =
      .error (.invalidTaskFormat t) := by
  have hrev : (ts ++ [t]).reverse = t :: ts.reverse := by
    rw [List.reverse_append]
    rfl
  have hgo : buildGo NXGraph.empty ((ts ++ [t]).reverse) =
      (.error (.invalidTaskFormat t), ts.reverse) := by
    rw [hrev]
    rcases h with h | h
    · rw [buildGo, h]
    · cases hn : t.name with
      | none => rw [buildGo, hn]
      | some nm => rw [buildGo, hn, h]
  have hb : from_tasks_to_graph (ts ++ [t]) =
      (.error (.invalidTaskFormat t), ts) := by
    unfold from_tasks_to_graph
    rw [hgo]
    simp
  refine ⟨hb, ?_⟩
  unfold get_highest_profit_schedule
  rw [hb]

/-- Witness for the amended claim C2 at a concrete input. -/
theorem claim_C2_witness :
    from_tasks_to_graph
      [⟨some "ok", some ["a"], some ⟨1, 1, by decide⟩⟩,
       ⟨some "bad", some ["b"], none⟩] =
      (.error (.invalidTaskFormat ⟨some "bad", some ["b"], none⟩),
       [⟨some "ok", some ["a"], some ⟨1, 1, by decide⟩⟩]) :=
  (claim_C2 [⟨some "ok", some ["a"], some ⟨1, 1, by decide⟩⟩]
    ⟨some "bad", some ["b"], none⟩ (Or.inr rfl)).1

/-- Claim C3: at every recursion level of `expand`, the candidate `C` is
pairwise non-adjacent, so the incumbent it produces is pairwise
non-adjacent as well (first conjunct, the inductive invariant); and
consequently, for every well-formed task list, no two distinct tasks of
the returned schedule share a resource (second conjunct). -/
theorem claim_C3 :
    (∀ (α : Type) [DecidableEq α] (E : α → α → Bool) (w : α → Q)
      (fuel : Nat) (C : List α) (Cw : Q) (P : List α) (inc : Incumbent α),
      indepL E C → (∀ u ∈ P, ∀ c ∈ C, E c u = false) →
      indepL E inc.nodes →
      indepL E (expand E w fuel C Cw P inc).nodes) ∧
    (∀ tasks : List RawTask, wellFormed tasks →
      ∀ sched, (get_highest_profit_schedule tasks).1 = .ok sched →
      ∀ u v, u ∈ sched → v ∈ sched → u ≠ v →
      ∀ ta ∈ tasks, ∀ tb ∈ tasks, ta.name = some u → tb.name = some v →
      sharesResource ta tb = false) := by
  constructor
  · intro α _ E w fuel C Cw P inc hC hP hinc
    exact expand_indep E w fuel C Cw P inc hC hP hinc
  · intro tasks hwf sched hsched u v hu hv hne ta hta tb htb hna hnb
    obtain ⟨g, hgr, hnodes, hnd, hprof, hedge⟩ := from_tasks_to_graph_ok tasks hwf
    have hall : (g.nodes.all fun x => (lookupProfit g.profits x).isSome) = true := by
      rw [List.all_eq_true]
      intro x hx
      obtain ⟨t, ht, hn⟩ := (hnodes x).mp hx
      rw [hprof t ht x hn]
      obtain ⟨_, _, hps⟩ := hwf.1 t ht
      simpa using hps
    have hmwis : get_maximum_weighted_independient_set g =
        .ok (find_max_weight_clique g.hasEdge
          (fun x => (lookupProfit g.profits x).getD Q.zero) g.nodes) := by
      unfold get_maximum_weighted_independient_set
      rw [if_pos hall]
    have hsched' : sched = (find_max_weight_clique g.hasEdge
        (fun x => (lookupProfit g.profits x).getD Q.zero) g.nodes).nodes := by
      unfold get_highest_profit_schedule at hsched
      rw [hgr] at hsched
      simp only [hmwis] at hsched
      exact (Except.ok.inj hsched).symm
    have hindep : indepL g.hasEdge sched := by
      rw [hsched']
      unfold find_max_weight_clique
      apply expand_indep
      · exact List.Pairwise.nil
      · intro x _ c hc
        exact absurd hc (List.not_mem_nil c)
      · exact List.Pairwise.nil
    have hsymrel : Symmetric (fun a b : String => g.hasEdge a b = false) := by
      intro a b h
      rw [hasEdge_symm]
      exact h
    have hEuv : g.hasEdge u v = false := hindep.forall hsymrel hu hv hne
    by_contra hcon
    rw [Bool.not_eq_false] at hcon
    have : g.hasEdge u v = true :=
      (hedge u v).mpr ⟨ta, hta, tb, htb, hna, hnb, hne, hcon⟩
    rw [this] at hEuv
    cases hEuv

/-- Witness for claim C3: the invariant at a concrete state, and the
disjointness of the two tasks the code actually schedules on the concrete
scenario. -/
theorem claim_C3_witness :
    indepL (fun _ _ : Nat => false)
      ((expand (fun _ _ : Nat => false) (fun _ => Q.zero) 1 [] Q.zero []
        ⟨[], Q.zero⟩).nodes) ∧
    sharesResource ⟨some "t3", some ["b"], some ⟨32, 10, by decide⟩⟩
      ⟨some "t4", some ["c", "d"], some ⟨63, 10, by decide⟩⟩ = false := by
  constructor
  · exact claim_C3.1 Nat (fun _ _ => false) (fun _ => Q.zero) 1 [] Q.zero []
      ⟨[], Q.zero⟩ List.Pairwise.nil (by simp) List.Pairwise.nil
  · exact claim_C3.2 readmeTasks (by decide) ["t3", "t4"] (by decide)
      "t3" "t4" (by decide) (by decide) (by decide)
      ⟨some "t3", some ["b"], some ⟨32, 10, by decide⟩⟩ (by decide)
      ⟨some "t4", some ["c", "d"], some ⟨63, 10, by decide⟩⟩ (by decide)
      rfl rfl

/-- Claim C4, counterexample: `get_highest_profit_schedule` is not free of
side effects on the caller's data: it empties the input list (the builder
pops every element), so after the call the list differs from the original
one-element list. -/
theorem claim_C4_counterexample :
    (get_highest_profit_schedule
      [⟨some "t", some ["a"], some ⟨1, 1, by decide⟩⟩]).2 = [] ∧
    [RawTask.mk (some "t") (some ["a"]) (some ⟨1, 1, by decide⟩)] ≠
      ([] : List RawTask) := by decide

/-- Claim C4, amended: the schedule is a function of the input values
alone (the embedding is pure and total on well-formed lists), the task
records themselves are never mutated, but the input LIST is consumed:
after a call on a well-formed list the caller's list is empty. -/
theorem claim_C4 (tasks : List RawTask) (hwf : wellFormed tasks) :
    (∃ g, (from_tasks_to_graph tasks).1 = .ok g) ∧
    (from_tasks_to_graph tasks).2 = [] ∧
    (get_highest_profit_schedule tasks).2 = [] := by
  obtain ⟨g, hgr, _, _, _, _⟩ := from_tasks_to_graph_ok tasks hwf
  refine ⟨⟨g, by rw [hgr]⟩, by rw [hgr], ?_⟩
  unfold get_highest_profit_schedule
  rw [hgr]

/-- Witness for the amended claim C4 at the concrete scenario. -/
theorem claim_C4_witness :
    (∃ g, (from_tasks_to_graph readmeTasks).1 = .ok g) ∧
    (from_tasks_to_graph readmeTasks).2 = [] ∧
    (get_highest_profit_schedule readmeTasks).2 = [] :=
  claim_C4 readmeTasks (by decide)

/-- Claim C5: on the concrete scenario the built conflict graph has
exactly the edges (t1,t2), (t1,t3), (t1,t4), (t2,t4) — and not (t2,t3) or
(t3,t4) — and the code returns the schedule `{t3, t4}` whose total profit
is 9.5. -/
theorem claim_C5 :
    (from_tasks_to_graph readmeTasks).1 = .ok readmeGraph ∧
    readmeGraph.hasEdge "t1" "t2" = true ∧
    readmeGraph.hasEdge "t1" "t3" = true ∧
    readmeGraph.hasEdge "t1" "t4" = true ∧
    readmeGraph.hasEdge "t2" "t4" = true ∧
    readmeGraph.hasEdge "t2" "t3" = false ∧
    readmeGraph.hasEdge "t3" "t4" = false ∧
    (∀ u, readmeGraph.hasEdge u u = false) ∧
    (get_highest_profit_schedule readmeTasks).1 = .ok ["t3", "t4"] ∧
    solver_weight readmeTasks = some ⟨950, 100, by decide⟩ ∧
    Q.equiv ⟨950, 100, by decide⟩ ⟨19, 2, by decide⟩ := by
  refine ⟨by decide, by decide, by decide, by decide, by decide, by decide,
    by decide, ?_, by decide, by decide, by decide⟩
  intro u
  rw [Bool.eq_false_iff]
  intro hcon
  unfold readmeGraph NXGraph.hasEdge at hcon
  rw [List.any_eq_true] at hcon
  obtain ⟨e, he, hm⟩ := hcon
  simp only [Bool.or_eq_true, Bool.and_eq_true, decide_eq_true_eq] at hm
  have hne : e.1 ≠ e.2 := by
    simp only [List.mem_cons, List.not_mem_nil, or_false] at he
    rcases he with rfl | rfl | rfl | rfl <;> decide
  rcases hm with ⟨h1, h2⟩ | ⟨h1, h2⟩ <;> exact hne (h1.trans h2.symm)

/-- Claim C6 (code bug): the returned total profit is not invariant under
permutation of the input list -- the same four tasks in a different order
give profit 15 instead of 14. -/
theorem claim_C6 :
    List.Perm cexTasks cexTasksPerm ∧
    solver_weight cexTasks = some ⟨14, 1, by decide⟩ ∧
    solver_weight cexTasksPerm = some ⟨15, 1, by decide⟩ ∧
    ¬ Q.equiv ⟨14, 1, by decide⟩ ⟨15, 1, by decide⟩ := by decide

/-- Claim C7: on a well-formed task list with unique names the builder
succeeds and produces an undirected simple graph: one node per task name
(no duplicates), the `profit` attribute of each node is its task's
profit, there is an edge between two names exactly when they belong to
two distinct tasks whose resource lists intersect, the adjacency test is
symmetric, and there are no self-loops (parallel edges cannot exist since
adjacency is a predicate derived from the edge set). -/
theorem claim_C7 (tasks : List RawTask) (hwf : wellFormed tasks) :
    ∃ g, (from_tasks_to_graph tasks).1 = .ok g ∧
      (∀ x, x ∈ g.nodes ↔ ∃ t ∈ tasks, t.name = some x) ∧
      g.nodes.Nodup ∧
      (∀ t ∈ tasks, ∀ nm, t.name = some nm →
        lookupProfit g.profits nm = t.profit) ∧
      (∀ u v, g.hasEdge u v = true ↔
        u ≠ v ∧ ∃ ta ∈ tasks, ∃ tb ∈ tasks, ta.name = some u ∧
          tb.name = some v ∧ sharesResource ta tb = true) ∧
      (∀ u v, g.hasEdge u v = g.hasEdge v u) ∧
      (∀ u, g.hasEdge u u = false) := by
  obtain ⟨g, hgr, hnodes, hnd, hprof, hedge⟩ := from_tasks_to_graph_ok tasks hwf
  have hedge' : ∀ u v, g.hasEdge u v = true ↔
      u ≠ v ∧ ∃ ta ∈ tasks, ∃ tb ∈ tasks, ta.name = some u ∧
        tb.name = some v ∧ sharesResource ta tb = true := by
    intro u v
    rw [hedge u v]
    constructor
    · rintro ⟨ta, hta, tb, htb, hna, hnb, hne, hsh⟩
      exact ⟨hne, ta, hta, tb, htb, hna, hnb, hsh⟩
    · rintro ⟨hne, ta, hta, tb, htb, hna, hnb, hsh⟩
      exact ⟨ta, hta, tb, htb, hna, hnb, hne, hsh⟩
  refine ⟨g, by rw [hgr], hnodes, hnd, hprof, hedge', fun u v => hasEdge_symm g u v, ?_⟩
  intro u
  rw [Bool.eq_false_iff]
  intro hcon
  obtain ⟨hne, _⟩ := (hedge' u u).mp hcon
  exact hne rfl

/-- Witness for claim C7 at the concrete scenario. -/
theorem claim_C7_witness :
    ∃ g, (from_tasks_to_graph readmeTasks).1 = .ok g ∧
      (∀ x, x ∈ g.nodes ↔ ∃ t ∈ readmeTasks, t.name = some x) ∧
      g.nodes.Nodup ∧
      (∀ t ∈ readmeTasks, ∀ nm, t.name = some nm →
        lookupProfit g.profits nm = t.profit) ∧
      (∀ u v, g.hasEdge u v = true ↔
        u ≠ v ∧ ∃ ta ∈ readmeTasks, ∃ tb ∈ readmeTasks, ta.name = some u ∧
          tb.name = some v ∧ sharesResource ta tb = true) ∧
      (∀ u v, g.hasEdge u v = g.hasEdge v u) ∧
      (∀ u, g.hasEdge u u = false) :=
  claim_C7 readmeTasks (by decide)

/-- Claim C8: the empty task list builds the empty graph, the solver
returns the empty schedule with weight 0, and the pipeline returns the
empty schedule without error. -/
theorem claim_C8 :
    from_tasks_to_graph ([] : List RawTask) = (.ok NXGraph.empty, []) ∧
    get_maximum_weighted_independient_set NXGraph.empty = .ok ⟨[], Q.zero⟩ ∧
    (get_highest_profit_schedule ([] : List RawTask)).1 =
      .ok ([] : List String) := by decide

/-- Claim C9: the fuelled `expand` with fuel `|P| + 1` (that is, recursion
depth at most the number of pool nodes below the top call) is already at
its fixpoint — extra fuel never changes the result, which is how the
embedding expresses that the Python recursion terminates within depth
`|P|`; the incumbent weight never decreases, so the search always returns
at least its initial incumbent (the empty set with weight 0); and on any
graph whose nodes all carry weights the solver returns without error and
with a non-negative weight. -/
theorem claim_C9 :
    (∀ (α : Type) [DecidableEq α] (E : α → α → Bool) (w : α → Q)
      (k : Nat) (C : List α) (Cw : Q) (P : List α) (inc : Incumbent α),
      expand E w (P.length + 1 + k) C Cw P inc =
        expand E w (P.length + 1) C Cw P inc) ∧
    (∀ (α : Type) [DecidableEq α] (E : α → α → Bool) (w : α → Q)
      (fuel : Nat) (C : List α) (Cw : Q) (P : List α) (inc : Incumbent α),
      Q.le inc.weight (expand E w fuel C Cw P inc).weight) ∧
    (∀ g : NXGraph,
      (g.nodes.all fun v => (lookupProfit g.profits v).isSome) = true →
      ∃ inc, get_maximum_weighted_independient_set g = .ok inc ∧
        Q.le Q.zero inc.weight) := by
  refine ⟨?_, ?_, ?_⟩
  · intro α _ E w k C Cw P inc
    exact expand_fuel_congr E w P.length (P.length + 1 + k) (P.length + 1)
      (by omega) (by omega) C Cw P inc (Nat.le_refl _)
  · intro α _ E w fuel C Cw P inc
    exact expand_weight_mono E w fuel C Cw P inc
  · intro g hall
    refine ⟨find_max_weight_clique g.hasEdge
      (fun v => (lookupProfit g.profits v).getD Q.zero) g.nodes, ?_, ?_⟩
    · unfold get_maximum_weighted_independient_set
      rw [if_pos hall]
    · exact expand_weight_mono _ _ _ _ _ _ _

/-- Witness for claim C9 at a concrete one-node graph. -/
theorem claim_C9_witness :
    ∃ inc, get_maximum_weighted_independient_set
        ⟨["a"], [("a", ⟨1, 1, by decide⟩)], []⟩ = .ok inc ∧
      Q.le Q.zero inc.weight :=
  claim_C9.2.2 ⟨["a"], [("a", ⟨1, 1, by decide⟩)], []⟩ (by decide)

/-- Claim C10, counterexample: with a first task lacking `resources`
followed by one well-formed task, the build does NOT proceed silently:
comparing the well-formed task (popped first) against the malformed one
evaluates its missing `resources` key and dies with an uncaught
`KeyError`, leaving the malformed task unconsumed. -/
theorem claim_C10_counterexample :
    from_tasks_to_graph
      [⟨some "m", none, some ⟨1, 1, by decide⟩⟩,
       ⟨some "w", some ["a"], some ⟨2, 1, by decide⟩⟩] =
      (.error (.keyError "resources"),
       [⟨some "m", none, some ⟨1, 1, by decide⟩⟩]) := by decide

/-- Claim C10, amended: only when the task lacking `resources` is the
SOLE task of the list does the build raise no error — the `for t2` loop
body never runs, the task becomes an isolated node, and (for positive
profit) the search returns exactly it. -/
theorem claim_C10 (nm : String) (p : Q) (hp : Q.lt Q.zero p) :
    (from_tasks_to_graph [⟨some nm, none, some p⟩]).1 =
      .ok ⟨[nm], [(nm, p)], []⟩ ∧
    get_highest_profit_schedule [⟨some nm, none, some p⟩] = (.ok [nm], []) := by
  have hbuild : from_tasks_to_graph [⟨some nm, none, some p⟩] =
      (.ok ⟨[nm], [(nm, p)], []⟩, []) := rfl
  have hlook : lookupProfit [(nm, p)] nm = some p := by simp [lookupProfit]
  have hcond : Q.lt (Q.sub Q.zero Q.zero) (Q.add Q.zero p) := by
    simp only [Q.lt, Q.sub, Q.add, Q.zero] at hp ⊢
    simpa using hp
  have hcond2 : Q.lt Q.zero (Q.add Q.zero p) := by
    simp only [Q.lt, Q.add, Q.zero] at hp ⊢
    simpa using hp
  have hfmwc : find_max_weight_clique
      (NXGraph.hasEdge ⟨[nm], [(nm, p)], []⟩)
      (fun v => (lookupProfit (NXGraph.profits ⟨[nm], [(nm, p)], []⟩) v).getD Q.zero)
      [nm] = ⟨[nm], Q.add Q.zero p⟩ := by
    unfold find_max_weight_clique
    show expand _ _ (1 + 1) [] Q.zero [nm] ⟨[], Q.zero⟩ = _
    rw [expand]
    have hupd : update_incumbent_if_improved (⟨[], Q.zero⟩ : Incumbent String) [] Q.zero =
        ⟨[], Q.zero⟩ := by
      unfold update_incumbent_if_improved
      rw [if_neg]
      simp [Q.lt]
    rw [hupd]
    have hbn : find_branching_nodes
        (NXGraph.hasEdge ⟨[nm], [(nm, p)], []⟩)
        (fun v => (lookupProfit (NXGraph.profits ⟨[nm], [(nm, p)], []⟩) v).getD Q.zero)
        [nm] (Q.sub Q.zero Q.zero) = [nm] := by
      unfold find_branching_nodes
      show findBranchingGo _ (0 + 1) _ _ _ _ = _
      rw [findBranchingGo]
      · rw [if_pos]
        have hgreedy : greedily_find_independent_set
            (NXGraph.hasEdge ⟨[nm], [(nm, p)], []⟩) [nm] = [nm] := rfl
        rw [hgreedy]
        have hmin : listMinQ (fun v =>
            (lookupProfit (NXGraph.profits ⟨[nm], [(nm, p)], []⟩) v).getD Q.zero)
            [nm] = p := by
          simp [listMinQ, hlook]
        rw [hmin]
        exact hcond
      · simp
    rw [hbn]
    simp only [List.reverse_cons, List.reverse_nil, List.nil_append,
      List.foldl_cons, List.foldl_nil, List.erase_cons_head, List.filter_nil]
    rw [expand]
    have hupd2 : update_incumbent_if_improved (⟨[], Q.zero⟩ : Incumbent String) [nm]
        (Q.add Q.zero ((lookupProfit (NXGraph.profits ⟨[nm], [(nm, p)], []⟩) nm).getD Q.zero)) =
        ⟨[nm], Q.add Q.zero p⟩ := by
      unfold update_incumbent_if_improved
      simp only [NXGraph.profits] at hlook ⊢
      rw [hlook]
      simp only [Option.getD_some]
      rw [if_pos hcond2]
    rw [hupd2]
    rfl
  refine ⟨by rw [hbuild], ?_⟩
  unfold get_highest_profit_schedule
  rw [hbuild]
  have hall : ((⟨[nm], [(nm, p)], []⟩ : NXGraph).nodes.all fun v =>
      (lookupProfit (⟨[nm], [(nm, p)], []⟩ : NXGraph).profits v).isSome) = true := by
    simp [lookupProfit]
  have hmwis : get_maximum_weighted_independient_set ⟨[nm], [(nm, p)], []⟩ =
      .ok ⟨[nm], Q.add Q.zero p⟩ := by
    unfold get_maximum_weighted_independient_set
    rw [if_pos hall]
    exact congrArg Except.ok hfmwc
  simp only [hmwis]

/-- Witness for the amended claim C10 at a concrete name and profit. -/
theorem claim_C10_witness :
    (from_tasks_to_graph [⟨some "m", none, some ⟨1, 1, by decide⟩⟩]).1 =
      .ok ⟨["m"], [("m", ⟨1, 1, by decide⟩)], []⟩ ∧
    get_highest_profit_schedule [⟨some "m", none, some ⟨1, 1, by decide⟩⟩] =
      (.ok ["m"], []) :=
  claim_C10 "m" ⟨1, 1, by decide⟩ (by decide)
